import Mathlib

/-!
Verification of the glouton IR optimization engine (src/instruction.rs,
src/optim.rs) against its specification.

The Rust data model is shallowly embedded: the `Type` enum is named `Ty`
(Lean reserves `Type`), `Symbol = (String, Type)` becomes `String × Ty`,
machine integers `i32`/`usize` become `Int`/`Nat` (no claim touches
overflow), and the mutable `ir::Function` (an ordered instruction
sequence) becomes a `List Instruction`, with passes written in explicit
state-passing style.

The repository sources in scope are `instruction.rs` (values, opcodes,
instructions, Display) and `optim.rs` (the DCE pass and the unfinished
LVN stub).  The `ir` module (`Function`, `operands()`, `destination()`,
`remove_dead_instructions()`) is not part of the provided sources; those
accessors are modelled from the specification, as marked on each
definition.
-/

namespace Glouton

/-- Types used in the IR (`Type` enum in `instruction.rs`, renamed `Ty`
because `Type` is a Lean keyword). -/
inductive Ty where
  | Unit
  | Int
  | Bool
  | Char
deriving DecidableEq

/-- Literal values (`Literal` enum in `instruction.rs`). -/
inductive Literal where
  | Empty
  | Int (value : Int)
  | Bool (value : Bool)
  | Char (value : Char)
deriving DecidableEq

/-- Symbols represent variable or function names: `(name, type)`. -/
abbrev Symbol := String × Ty

/-- Every IR value is either a symbol reference to a storage location or
a literal (`Value` enum in `instruction.rs`). -/
inductive Value where
  | StorageLocation (s : Symbol)
  | ConstantLiteral (l : Literal)
deriving DecidableEq

/-- `OPCode` enum from `instruction.rs`. -/
inductive OPCode where
  | Jump
  | Branch
  | Call
  | Return
  | Const
  | Add
  | Sub
  | Mul
  | Div
  | Eq
  | Neq
  | Lt
  | Gt
  | Lte
  | Gte
  | Not
  | Neg
  | And
  | Or
  | Id
  | Label
  | Nop
deriving DecidableEq

/-- The `Instruction` enum from `instruction.rs`, variant for variant.
Labels are `usize` offsets, embedded as `Nat`. -/
inductive Instruction where
  | Const (dst : Symbol) (lit : Literal)
  | Add (dst : Symbol) (lhs rhs : Value)
  | Sub (dst : Symbol) (lhs rhs : Value)
  | Mul (dst : Symbol) (lhs rhs : Value)
  | Div (dst : Symbol) (lhs rhs : Value)
  | And (dst : Symbol) (lhs rhs : Value)
  | Or (dst : Symbol) (lhs rhs : Value)
  | Not (dst : Symbol) (operand : Value)
  | Neg (dst : Symbol) (operand : Value)
  | Eq (dst : Symbol) (lhs rhs : Value)
  | Neq (dst : Symbol) (lhs rhs : Value)
  | Lt (dst : Symbol) (lhs rhs : Value)
  | Lte (dst : Symbol) (lhs rhs : Value)
  | Gt (dst : Symbol) (lhs rhs : Value)
  | Gte (dst : Symbol) (lhs rhs : Value)
  | Return (value : Value)
  | Call (target : Symbol) (args : List Value)
  | Jump (target : Nat)
  | Branch (cond : Symbol) (thenTarget elseTarget : Nat)
  | Id (dst : Symbol) (value : Value)
  | Label (addr : Nat)
  | Nop

/-- `Instruction::opcode` from `instruction.rs`, case for case. -/
def opcode : Instruction → OPCode
  | .Const _ _ => .Const
  | .Add _ _ _ => .Add
  | .Sub _ _ _ => .Sub
  | .Mul _ _ _ => .Mul
  | .Div _ _ _ => .Div
  | .And _ _ _ => .And
  | .Or _ _ _ => .Or
  | .Neg _ _ => .Neg
  | .Not _ _ => .Not
  | .Eq _ _ _ => .Eq
  | .Neq _ _ _ => .Neq
  | .Lt _ _ _ => .Lt
  | .Lte _ _ _ => .Lte
  | .Gt _ _ _ => .Gt
  | .Gte _ _ _ => .Gte
  | .Return _ => .Return
  | .Call _ _ => .Call
  | .Jump _ => .Jump
  | .Branch _ _ _ => .Branch
  | .Id _ _ => .Id
  | .Nop => .Nop
  | .Label _ => .Label

/-- Tag identifying an instruction's variant, used to state that the
opcode projection is a one-to-one function of the variant. -/
def variantTag : Instruction → Nat
  | .Const _ _ => 0
  | .Add _ _ _ => 1
  | .Sub _ _ _ => 2
  | .Mul _ _ _ => 3
  | .Div _ _ _ => 4
  | .And _ _ _ => 5
  | .Or _ _ _ => 6
  | .Not _ _ => 7
  | .Neg _ _ => 8
  | .Eq _ _ _ => 9
  | .Neq _ _ _ => 10
  | .Lt _ _ _ => 11
  | .Lte _ _ _ => 12
  | .Gt _ _ _ => 13
  | .Gte _ _ _ => 14
  | .Return _ => 15
  | .Call _ _ => 16
  | .Jump _ => 17
  | .Branch _ _ _ => 18
  | .Id _ _ => 19
  | .Label _ => 20
  | .Nop => 21

/-- `impl fmt::Display for Type` from `instruction.rs`. -/
def displayTy : Ty → String
  | .Unit => ""
  | .Int => "int"
  | .Bool => "bool"
  | .Char => "char"

/-- `impl fmt::Display for Literal` from `instruction.rs`. -/
def displayLiteral : Literal → String
  | .Empty => "NONE"
  | .Int value => toString value
  | .Bool value => cond value "true" "false"
  | .Char value => String.mk [value]

/-- `impl fmt::Display for Value` from `instruction.rs`: a storage
location prints its symbol name, a literal prints the literal. -/
def displayValue : Value → String
  | .StorageLocation symbol => symbol.1
  | .ConstantLiteral lit => displayLiteral lit

/-- `impl fmt::Display for Label` from `instruction.rs`. -/
def displayLabel (n : Nat) : String := "__LABEL_" ++ toString n

/-- Rendering of a `Call`'s argument list: each argument followed by a
space, as written by the `for arg in args` loop in the source. -/
def displayArgs : List Value → String
  | [] => ""
  | arg :: rest => displayValue arg ++ " " ++ displayArgs rest

/-- `impl fmt::Display for Instruction` from `instruction.rs`, format
string for format string (including its `or` renderings for every
comparison opcode and the `return`/`const =` spellings). -/
def displayInstruction : Instruction → String
  | .Const dst lit =>
      dst.1 ++ ": " ++ displayTy dst.2 ++ " const = " ++ displayLiteral lit
  | .Add dst lhs rhs =>
      dst.1 ++ " : " ++ displayTy dst.2 ++ " = add " ++ displayValue lhs ++ " " ++ displayValue rhs
  | .Sub dst lhs rhs =>
      dst.1 ++ " : " ++ displayTy dst.2 ++ " = sub " ++ displayValue lhs ++ " " ++ displayValue rhs
  | .Mul dst lhs rhs =>
      dst.1 ++ " : " ++ displayTy dst.2 ++ " = mul " ++ displayValue lhs ++ " " ++ displayValue rhs
  | .Div dst lhs rhs =>
      dst.1 ++ " : " ++ displayTy dst.2 ++ " = div " ++ displayValue lhs ++ " " ++ displayValue rhs
  | .And dst lhs rhs =>
      dst.1 ++ " : " ++ displayTy dst.2 ++ " = and " ++ displayValue lhs ++ " " ++ displayValue rhs
  | .Or dst lhs rhs =>
      dst.1 ++ " : " ++ displayTy dst.2 ++ " = or " ++ displayValue lhs ++ " " ++ displayValue rhs
  | .Neg dst operand =>
      dst.1 ++ " : " ++ displayTy dst.2 ++ " = neg " ++ displayValue operand
  | .Not dst operand =>
      dst.1 ++ " : " ++ displayTy dst.2 ++ " = not " ++ displayValue operand
  | .Eq dst lhs rhs =>
      dst.1 ++ " : " ++ displayTy dst.2 ++ " = or " ++ displayValue lhs ++ " " ++ displayValue rhs
  | .Neq dst lhs rhs =>
      dst.1 ++ " : " ++ displayTy dst.2 ++ " = or " ++ displayValue lhs ++ " " ++ displayValue rhs
  | .Lt dst lhs rhs =>
      dst.1 ++ " : " ++ displayTy dst.2 ++ " = or " ++ displayValue lhs ++ " " ++ displayValue rhs
  | .Lte dst lhs rhs =>
      dst.1 ++ " : " ++ displayTy dst.2 ++ " = or " ++ displayValue lhs ++ " " ++ displayValue rhs
  | .Gt dst lhs rhs =>
      dst.1 ++ " : " ++ displayTy dst.2 ++ " = or " ++ displayValue lhs ++ " " ++ displayValue rhs
  | .Gte dst lhs rhs =>
      dst.1 ++ " : " ++ displayTy dst.2 ++ " = or " ++ displayValue lhs ++ " " ++ displayValue rhs
  | .Return value => "return " ++ displayValue value
  | .Call def_ args => "@" ++ def_.1 ++ displayArgs args
  | .Jump target => "jump " ++ displayLabel target
  | .Branch cond thenTarget elseTarget =>
      "br " ++ cond.1 ++ " " ++ displayLabel thenTarget ++ " " ++ displayLabel elseTarget
  | .Id dst value =>
      dst.1 ++ " : " ++ displayTy dst.2 ++ " = id " ++ displayValue value
  | .Nop => "nop"
  | .Label addr => "__LABEL_" ++ toString addr

/-- Modelled from the spec: `operands() -> (Option<Value>, Option<Value>)`
lives in the `ir` module, which is not among the provided sources.  Per
§4.1 it "exposes up to two source values uniformly across
arithmetic/boolean/comparison/unary/copy instructions"; per §4.4 step 1
the DCE use-scan (which consumes only `operands()`) sees `Branch`'s
condition, `Call`'s arguments and `Return`'s value, so those are exposed
here as well (`Call` can expose at most its first two arguments in a
two-slot interface).  The source comment in `optim.rs` ("the only
instructions that receive a constant literal ... is `const` and it only
has one operand") fixes `Const` to a single literal operand. -/
def operands : Instruction → Option Value × Option Value
  | .Const _ lit => (some (.ConstantLiteral lit), none)
  | .Add _ lhs rhs => (some lhs, some rhs)
  | .Sub _ lhs rhs => (some lhs, some rhs)
  | .Mul _ lhs rhs => (some lhs, some rhs)
  | .Div _ lhs rhs => (some lhs, some rhs)
  | .And _ lhs rhs => (some lhs, some rhs)
  | .Or _ lhs rhs => (some lhs, some rhs)
  | .Not _ operand => (some operand, none)
  | .Neg _ operand => (some operand, none)
  | .Eq _ lhs rhs => (some lhs, some rhs)
  | .Neq _ lhs rhs => (some lhs, some rhs)
  | .Lt _ lhs rhs => (some lhs, some rhs)
  | .Lte _ lhs rhs => (some lhs, some rhs)
  | .Gt _ lhs rhs => (some lhs, some rhs)
  | .Gte _ lhs rhs => (some lhs, some rhs)
  | .Return value => (some value, none)
  | .Call _ args => (args[0]?, args[1]?)
  | .Jump _ => (none, none)
  | .Branch cond _ _ => (some (.StorageLocation cond), none)
  | .Id _ value => (some value, none)
  | .Label _ => (none, none)
  | .Nop => (none, none)

/-- Modelled from the spec: `destination()` lives in the `ir` module,
which is not among the provided sources.  Per §4.1 it "returns the
symbol written by this instruction, or none for opcodes with no
destination (`Return`, `Jump`, `Branch`, `Label`, `Nop`, `Call` without
a binding)"; the `Call` variant in `instruction.rs` carries no binding. -/
def destination : Instruction → Option Symbol
  | .Const dst _ => some dst
  | .Add dst _ _ => some dst
  | .Sub dst _ _ => some dst
  | .Mul dst _ _ => some dst
  | .Div dst _ _ => some dst
  | .And dst _ _ => some dst
  | .Or dst _ _ => some dst
  | .Not dst _ => some dst
  | .Neg dst _ => some dst
  | .Eq dst _ _ => some dst
  | .Neq dst _ _ => some dst
  | .Lt dst _ _ => some dst
  | .Lte dst _ _ => some dst
  | .Gt dst _ _ => some dst
  | .Gte dst _ _ => some dst
  | .Id dst _ => some dst
  | .Return _ => none
  | .Call _ _ => none
  | .Jump _ => none
  | .Branch _ _ _ => none
  | .Label _ => none
  | .Nop => none

/-- Recognizer for the `Nop` variant. -/
def isNop : Instruction → Bool
  | .Nop => true
  | _ => false

/-- The symbols inserted into DCE's used set by one instruction: the
first `for` loop body of `DCE::tdce` in `optim.rs`, match arm for match
arm (in particular, a two-operand instruction contributes only when
both operands are `StorageLocation`s). -/
def scanInserts (inst : Instruction) : List Symbol :=
  match operands inst with
  | (some lhs, some rhs) =>
    match lhs, rhs with
    | .StorageLocation lhs, .StorageLocation rhs => [lhs, rhs]
    | _, _ => []
  | (some operand, none) =>
    match operand with
    | .StorageLocation operand => [operand]
    | _ => []
  | _ => []

/-- The whole use-collection scan of `DCE::tdce`: the `use_defs` set,
represented as a list whose membership is what matters. -/
def collectUses : List Instruction → List Symbol
  | [] => []
  | inst :: rest => scanInserts inst ++ collectUses rest

/-- The second loop of `DCE::tdce`: an instruction whose destination is
present but not in the used set is replaced in place with `Nop`. -/
def mark (uses : List Symbol) (inst : Instruction) : Instruction :=
  match destination inst with
  | some dst => if dst ∈ uses then inst else .Nop
  | none => inst

/-- Modelled from the spec: `Function::remove_dead_instructions()` lives
in the `ir` module, which is not among the provided sources.  Per §4.1
it "compacts out every instruction whose variant is `Nop`, in place,
preserving order". -/
def removeDeadInstructions (f : List Instruction) : List Instruction :=
  f.filter (fun inst => !(isNop inst))

/-- `DCE::tdce` from `optim.rs`: collect uses, mark dead destinations as
`Nop`, compact, and report whether the instruction count changed
(`candidates != function.len()`). -/
def tdce (f : List Instruction) : List Instruction × Bool :=
  let uses := collectUses f
  let marked := f.map (mark uses)
  let compacted := removeDeadInstructions marked
  (compacted, decide (f.length ≠ compacted.length))

/-- Fuel-indexed unfolding of the `while Self::tdce(function) {}` loop
of `DCE::run`; `f.length + 1` fuel always suffices because an iteration
that reports a change strictly shrinks the instruction count. -/
def dceRunFuel : Nat → List Instruction → List Instruction
  | 0, f => f
  | n + 1, f => if (tdce f).2 then dceRunFuel n (tdce f).1 else (tdce f).1

/-- `DCE::run` from `optim.rs` (the `Transform` impl): iterate `tdce`
until it reports no change. -/
def dceRun (f : List Instruction) : List Instruction :=
  dceRunFuel (f.length + 1) f

/-- Whether the condition `keep` under which `tdce` retains an
instruction holds: the instruction survives marking and compaction. -/
def keepLive (uses : List Symbol) (inst : Instruction) : Bool :=
  !(isNop (mark uses inst))

/-- The five control / effect variants that C8 asserts DCE never
removes: `Return`, `Jump`, `Branch`, `Call` (which carries no binding),
and `Label`. -/
def isControl (inst : Instruction) : Bool :=
  match inst with
  | .Return _ => true
  | .Jump _ => true
  | .Branch _ _ _ => true
  | .Call _ _ => true
  | .Label _ => true
  | _ => false

/-- Symbols referenced by a value: a storage location references its
symbol, a constant literal references nothing. -/
def symsOfValue : Value → List Symbol
  | .StorageLocation s => [s]
  | .ConstantLiteral _ => []

/-- Symbols referenced by a call argument list. -/
def argsSyms : List Value → List Symbol
  | [] => []
  | v :: rest => symsOfValue v ++ argsSyms rest

/-- Every symbol an instruction references as an operand (the semantic
use sites of §4.4: any `StorageLocation` operand, including `Branch`'s
condition, `Call`'s arguments and `Return`'s value). -/
def usesOf : Instruction → List Symbol
  | .Const _ _ => []
  | .Add _ lhs rhs => symsOfValue lhs ++ symsOfValue rhs
  | .Sub _ lhs rhs => symsOfValue lhs ++ symsOfValue rhs
  | .Mul _ lhs rhs => symsOfValue lhs ++ symsOfValue rhs
  | .Div _ lhs rhs => symsOfValue lhs ++ symsOfValue rhs
  | .And _ lhs rhs => symsOfValue lhs ++ symsOfValue rhs
  | .Or _ lhs rhs => symsOfValue lhs ++ symsOfValue rhs
  | .Not _ operand => symsOfValue operand
  | .Neg _ operand => symsOfValue operand
  | .Eq _ lhs rhs => symsOfValue lhs ++ symsOfValue rhs
  | .Neq _ lhs rhs => symsOfValue lhs ++ symsOfValue rhs
  | .Lt _ lhs rhs => symsOfValue lhs ++ symsOfValue rhs
  | .Lte _ lhs rhs => symsOfValue lhs ++ symsOfValue rhs
  | .Gt _ lhs rhs => symsOfValue lhs ++ symsOfValue rhs
  | .Gte _ lhs rhs => symsOfValue lhs ++ symsOfValue rhs
  | .Return value => symsOfValue value
  | .Call _ args => argsSyms args
  | .Jump _ => []
  | .Branch cond _ _ => [cond]
  | .Id _ value => symsOfValue value
  | .Label _ => []
  | .Nop => []

/-- Recognizer for `StorageLocation` values. -/
def isStorage : Value → Bool
  | .StorageLocation _ => true
  | .ConstantLiteral _ => false

/-- Restriction under which the use-scan of `tdce` covers every semantic
use: constant-literal operands occur only in `Const` instructions, and
calls pass at most two (storage-location) arguments. -/
def okInst : Instruction → Bool
  | .Const _ _ => true
  | .Add _ lhs rhs => isStorage lhs && isStorage rhs
  | .Sub _ lhs rhs => isStorage lhs && isStorage rhs
  | .Mul _ lhs rhs => isStorage lhs && isStorage rhs
  | .Div _ lhs rhs => isStorage lhs && isStorage rhs
  | .And _ lhs rhs => isStorage lhs && isStorage rhs
  | .Or _ lhs rhs => isStorage lhs && isStorage rhs
  | .Not _ operand => isStorage operand
  | .Neg _ operand => isStorage operand
  | .Eq _ lhs rhs => isStorage lhs && isStorage rhs
  | .Neq _ lhs rhs => isStorage lhs && isStorage rhs
  | .Lt _ lhs rhs => isStorage lhs && isStorage rhs
  | .Lte _ lhs rhs => isStorage lhs && isStorage rhs
  | .Gt _ lhs rhs => isStorage lhs && isStorage rhs
  | .Gte _ lhs rhs => isStorage lhs && isStorage rhs
  | .Return value => isStorage value
  | .Call _ args => args.all isStorage && decide (args.length ≤ 2)
  | .Jump _ => true
  | .Branch _ _ _ => true
  | .Id _ value => isStorage value
  | .Label _ => true
  | .Nop => true

/-- All instructions of a function satisfy `okInst`. -/
def literalsOk (f : List Instruction) : Bool :=
  f.all okInst

/-- Flow-insensitive well-formedness: scanning the stream in order with
the set `defs` of already-defined symbols, every symbol an instruction
uses must already have a (reaching) definition. -/
def wfFrom (defs : List Symbol) : List Instruction → Bool
  | [] => true
  | inst :: rest =>
    (usesOf inst).all (fun s => decide (s ∈ defs)) &&
      wfFrom (match destination inst with
              | some d => d :: defs
              | none => defs) rest

/-- A function is well-formed when every operand use has a reaching
definition (no dangling use). -/
def wellFormed (f : List Instruction) : Bool :=
  wfFrom [] f

/-- Modelled from the spec: the LVN pass state of §4.5 (the source's
`LVN::run` in `optim.rs` is an unfinished placeholder whose encoding
functions are `todo!()`).  As sketched there, `env` maps live symbols to
value numbers (`var2num`), `table` maps canonically encoded operations
`(opcode, vn, vn)` to value numbers (`value2number`), `vars` maps value
numbers back to the symbol currently holding them (`num2vars`), and
`consts` maps value numbers to statically known literals (`num2const`);
`next` is the next fresh value number. -/
structure LState where
  env : List (Symbol × Nat)
  table : List ((OPCode × Nat × Nat) × Nat)
  vars : List (Nat × Symbol)
  consts : List (Nat × Literal)
  next : Nat

/-- Association-list lookup (first match wins, like the insertion-shadowing
HashMaps the source sketches). -/
def alookup {α β : Type} [DecidableEq α] : List (α × β) → α → Option β
  | [], _ => none
  | (k, v) :: rest, a => if k = a then some v else alookup rest a

/-- The value number already keyed by a literal, if any (so identical
constants anywhere in a block collapse to one value number, §4.5 step 1). -/
def lookupLiteralVN : List (Nat × Literal) → Literal → Option Nat
  | [], _ => none
  | (vn, l) :: rest, lit => if l = lit then some vn else lookupLiteralVN rest lit

/-- Modelled from the spec, §4.5 step 1: a `StorageLocation` looks up the
environment, assigning a fresh value number on first encounter; a
`ConstantLiteral` resolves to the value number keyed by the literal,
allocating a fresh one recorded in `consts` if none exists. -/
def valueNumber (st : LState) : Value → LState × Nat
  | .StorageLocation s =>
    match alookup st.env s with
    | some vn => (st, vn)
    | none => ({ st with env := (s, st.next) :: st.env, next := st.next + 1 }, st.next)
  | .ConstantLiteral lit =>
    match lookupLiteralVN st.consts lit with
    | some vn => (st, vn)
    | none => ({ st with consts := (st.next, lit) :: st.consts, next := st.next + 1 }, st.next)

/-- Modelled from the spec, §4.5 step 2: standard integer/boolean
semantics of the pure binary operators, with division by a constant
zero a fold-time error (`none`, so the fold is skipped, §7). -/
def evalBinary : OPCode → Literal → Literal → Option Literal
  | .Add, .Int m, .Int n => some (.Int (m + n))
  | .Sub, .Int m, .Int n => some (.Int (m - n))
  | .Mul, .Int m, .Int n => some (.Int (m * n))
  | .Div, .Int m, .Int n => if n = 0 then none else some (.Int (Int.tdiv m n))
  | .And, .Bool a, .Bool b => some (.Bool (a && b))
  | .Or, .Bool a, .Bool b => some (.Bool (a || b))
  | .Eq, .Int m, .Int n => some (.Bool (decide (m = n)))
  | .Neq, .Int m, .Int n => some (.Bool (decide (m ≠ n)))
  | .Lt, .Int m, .Int n => some (.Bool (decide (m < n)))
  | .Lte, .Int m, .Int n => some (.Bool (decide (m ≤ n)))
  | .Gt, .Int m, .Int n => some (.Bool (decide (n < m)))
  | .Gte, .Int m, .Int n => some (.Bool (decide (n ≤ m)))
  | _, _, _ => none

/-- Modelled from the spec, §4.5 step 2: the pure unary operators. -/
def evalUnary : OPCode → Literal → Option Literal
  | .Not, .Bool b => some (.Bool (!b))
  | .Neg, .Int n => some (.Int (-n))
  | _, _ => none

/-- Bind a destination symbol to a value number, implementing §4.5's
redefinition rule: the name is shadowed in the environment, and every
canonical-holder entry that still names the rebound symbol is
invalidated (removed from `vars`), so later CSE can never reuse a name
that no longer holds that value. -/
def bindDst (st : LState) (dst : Symbol) (vn : Nat) : LState :=
  { st with
    env := (dst, vn) :: st.env
    vars := st.vars.filter (fun p => decide (p.2 ≠ dst)) }

/-- Record a genuinely new computation, §4.5 step 5: allocate a fresh
value number, record the canonical encoding, make the destination the
canonical holder of the fresh number (invalidating, per §4.5's
redefinition rule, any stale holder entries still naming it), and bind
the destination. -/
def recordNew (st : LState) (key : OPCode × Nat × Nat) (dst : Symbol) : LState :=
  { st with
    table := (key, st.next) :: st.table
    vars := (st.next, dst) :: st.vars.filter (fun p => decide (p.2 ≠ dst))
    env := (dst, st.next) :: st.env
    next := st.next + 1 }

/-- Modelled from the spec, §4.5 steps 1-5 for a two-operand pure
instruction: number the operands left to right, try constant folding,
then common-subexpression elimination, else record a new computation
and keep the original instruction. -/
def lvnBinaryStep (st : LState) (op : OPCode) (dst : Symbol) (lhs rhs : Value)
    (original : Instruction) : LState × Instruction :=
  match valueNumber st lhs with
  | (st1, n1) =>
    match valueNumber st1 rhs with
    | (st2, n2) =>
      match (alookup st2.consts n1).bind
          (fun l1 => (alookup st2.consts n2).bind (fun l2 => evalBinary op l1 l2)) with
      | some lit =>
        (match valueNumber st2 (.ConstantLiteral lit) with
         | (st3, vn) => (bindDst st3 dst vn, .Const dst lit))
      | none =>
        match alookup st2.table (op, n1, n2) with
        | some vn =>
          match alookup st2.vars vn with
          | some sym => (bindDst st2 dst vn, .Id dst (.StorageLocation sym))
          | none => (recordNew st2 (op, n1, n2) dst, original)
        | none => (recordNew st2 (op, n1, n2) dst, original)

/-- Modelled from the spec, §4.5 steps 1-5 for a one-operand pure
instruction (the canonical key duplicates the single operand's value
number in the two-slot encoding of the source's `Value` struct). -/
def lvnUnaryStep (st : LState) (op : OPCode) (dst : Symbol) (operand : Value)
    (original : Instruction) : LState × Instruction :=
  match valueNumber st operand with
  | (st1, n1) =>
    match (alookup st1.consts n1).bind (fun l1 => evalUnary op l1) with
    | some lit =>
      (match valueNumber st1 (.ConstantLiteral lit) with
       | (st3, vn) => (bindDst st3 dst vn, .Const dst lit))
    | none =>
      match alookup st1.table (op, n1, n1) with
      | some vn =>
        match alookup st1.vars vn with
        | some sym => (bindDst st1 dst vn, .Id dst (.StorageLocation sym))
        | none => (recordNew st1 (op, n1, n1) dst, original)
      | none => (recordNew st1 (op, n1, n1) dst, original)

/-- Modelled from the spec, §4.5: processing of one instruction.  A
`Const` binds its destination to the literal's value number (step 1); an
`Id` is copy propagation (step 4: bind the destination to the source's
value number without a new table entry); pure binary/unary operators go
through fold/CSE/new-computation; instructions that produce no value
pass through with the state unchanged. -/
def lvnStep (st : LState) : Instruction → LState × Instruction
  | .Const dst lit =>
    (match valueNumber st (.ConstantLiteral lit) with
     | (st1, vn) => (bindDst st1 dst vn, .Const dst lit))
  | .Add dst lhs rhs => lvnBinaryStep st .Add dst lhs rhs (.Add dst lhs rhs)
  | .Sub dst lhs rhs => lvnBinaryStep st .Sub dst lhs rhs (.Sub dst lhs rhs)
  | .Mul dst lhs rhs => lvnBinaryStep st .Mul dst lhs rhs (.Mul dst lhs rhs)
  | .Div dst lhs rhs => lvnBinaryStep st .Div dst lhs rhs (.Div dst lhs rhs)
  | .And dst lhs rhs => lvnBinaryStep st .And dst lhs rhs (.And dst lhs rhs)
  | .Or dst lhs rhs => lvnBinaryStep st .Or dst lhs rhs (.Or dst lhs rhs)
  | .Eq dst lhs rhs => lvnBinaryStep st .Eq dst lhs rhs (.Eq dst lhs rhs)
  | .Neq dst lhs rhs => lvnBinaryStep st .Neq dst lhs rhs (.Neq dst lhs rhs)
  | .Lt dst lhs rhs => lvnBinaryStep st .Lt dst lhs rhs (.Lt dst lhs rhs)
  | .Lte dst lhs rhs => lvnBinaryStep st .Lte dst lhs rhs (.Lte dst lhs rhs)
  | .Gt dst lhs rhs => lvnBinaryStep st .Gt dst lhs rhs (.Gt dst lhs rhs)
  | .Gte dst lhs rhs => lvnBinaryStep st .Gte dst lhs rhs (.Gte dst lhs rhs)
  | .Not dst operand => lvnUnaryStep st .Not dst operand (.Not dst operand)
  | .Neg dst operand => lvnUnaryStep st .Neg dst operand (.Neg dst operand)
  | .Id dst value =>
    (match valueNumber st value with
     | (st1, vn) => (bindDst st1 dst vn, .Id dst value))
  | inst => (st, inst)

/-- Modelled from the spec: LVN's per-instruction sweep over a block, in
block order, threading the numbering state. -/
def lvnSteps (st : LState) : List Instruction → LState × List Instruction
  | [] => (st, [])
  | inst :: rest =>
    match lvnStep st inst with
    | (st1, out) =>
      match lvnSteps st1 rest with
      | (st2, outs) => (st2, out :: outs)

/-- The empty per-block LVN state (tables start empty at each block,
§4.5 scope rule). -/
def initialLState : LState := ⟨[], [], [], [], 0⟩

/-- Modelled from the spec: the LVN rewrite of one basic block. -/
def lvnBlock (block : List Instruction) : List Instruction :=
  (lvnSteps initialLState block).2

/-- State invariant used to reason about CSE: after `c = add a b` has
been numbered, `a` and `b` keep value numbers `va`, `vb` with no known
constants, the canonical encoding `(Add, va, vb)` keeps value number
`vnc`, whose canonical holder stays `c`; all three numbers are below the
fresh counter, as are all keys of `consts` and `vars`. -/
def Tracks (a b c : Symbol) (va vb vnc : Nat) (st : LState) : Prop :=
  alookup st.env a = some va ∧
  alookup st.env b = some vb ∧
  alookup st.consts va = none ∧
  alookup st.consts vb = none ∧
  alookup st.table (.Add, va, vb) = some vnc ∧
  alookup st.vars vnc = some c ∧
  va < st.next ∧ vb < st.next ∧ vnc < st.next ∧
  (∀ p ∈ st.consts, p.1 < st.next) ∧
  (∀ p ∈ st.vars, p.1 < st.next)

/-! ## Helper lemmas about the DCE pass -/

/-- Marking either leaves an instruction unchanged or replaces it with `Nop`. -/
theorem mark_eq_or_nop (u : List Symbol) (inst : Instruction) :
    mark u inst = inst ∨ mark u inst = .Nop := by
  unfold mark
  split
  · split
    · exact Or.inl rfl
    · exact Or.inr rfl
  · exact Or.inl rfl

/-- An instruction with a destination is not `Nop`. -/
theorem dest_some_not_nop {inst : Instruction} {d : Symbol}
    (h : destination inst = some d) : isNop inst = false := by
  cases inst <;> simp_all [destination, isNop]

/-- Marking then compacting is filtering by `keepLive`. -/
theorem map_mark_filter (u : List Symbol) :
    ∀ f : List Instruction,
      (f.map (mark u)).filter (fun inst => !(isNop inst)) = f.filter (keepLive u)
  | [] => rfl
  | inst :: f => by
    have ih := map_mark_filter u f
    rcases mark_eq_or_nop u inst with h | h
    · by_cases hn : isNop inst = true
      · simp only [List.map_cons, List.filter_cons, h, keepLive]
        simp [hn, ih]
      · have hn' : isNop inst = false := by revert hn; cases isNop inst <;> simp
        simp only [List.map_cons, List.filter_cons, h, keepLive]
        simp [hn', ih]
    · simp only [List.map_cons, List.filter_cons, h, keepLive]
      have hnop : isNop Instruction.Nop = true := rfl
      simp [hnop, ih]

/-- The instructions `tdce` keeps are exactly the `keepLive` filter of the
input. -/
theorem tdce_fst (f : List Instruction) :
    (tdce f).1 = f.filter (keepLive (collectUses f)) :=
  map_mark_filter (collectUses f) f

/-- A filter whose output has full length is the identity. -/
theorem filter_len_eq {α : Type} {p : α → Bool} :
    ∀ l : List α, (l.filter p).length = l.length → l.filter p = l := by
  intro l
  induction l with
  | nil => simp
  | cons a l ih =>
    intro h
    by_cases hp : p a = true
    · rw [List.filter_cons, if_pos hp] at h ⊢
      rw [List.length_cons, List.length_cons] at h
      rw [ih (Nat.succ_injective h)]
    · rw [List.filter_cons, if_neg hp] at h
      have hle := List.length_filter_le p l
      rw [List.length_cons] at h
      omega

/-- One `tdce` pass never increases the instruction count. -/
theorem tdce_len_le (f : List Instruction) : (tdce f).1.length ≤ f.length := by
  rw [tdce_fst]
  exact List.length_filter_le _ _

/-- `tdce` reports a change exactly when the instruction count strictly
decreased. -/
theorem tdce_snd_iff (f : List Instruction) :
    (tdce f).2 = true ↔ (tdce f).1.length < f.length := by
  have hle := tdce_len_le f
  have h2 : (tdce f).2 = decide (f.length ≠ (tdce f).1.length) := rfl
  rw [h2, decide_eq_true_eq]
  omega

/-- When `tdce` reports no change, it removed nothing at all. -/
theorem tdce_unchanged {f : List Instruction} (h : (tdce f).2 = false) :
    (tdce f).1 = f := by
  have h2 : (tdce f).2 = decide (f.length ≠ (tdce f).1.length) := rfl
  rw [h2] at h
  have hne := of_decide_eq_false h
  have hle := tdce_len_le f
  have hlen : ((tdce f).1).length = f.length := by omega
  rw [tdce_fst] at hlen ⊢
  exact filter_len_eq f hlen

/-- A reported change means a strict shrink. -/
theorem tdce_lt_of_changed {f : List Instruction} (h : (tdce f).2 = true) :
    (tdce f).1.length < f.length :=
  (tdce_snd_iff f).mp h

/-- With fuel exceeding the instruction count, the iterated pass lands on a
`tdce` fixpoint. -/
theorem dceRunFuel_fix : ∀ (n : Nat) (f : List Instruction), f.length < n →
    (tdce (dceRunFuel n f)).2 = false := by
  intro n
  induction n with
  | zero => intro f h; omega
  | succ n ih =>
    intro f h
    simp only [dceRunFuel]
    by_cases hc : (tdce f).2 = true
    · rw [if_pos hc]
      have hlt := tdce_lt_of_changed hc
      exact ih _ (by omega)
    · have hc' : (tdce f).2 = false := by
        revert hc; cases (tdce f).2 <;> simp
      rw [if_neg hc, tdce_unchanged hc']
      exact hc'

/-- The result of `DCE::run` is a `tdce` fixpoint. -/
theorem dceRun_fix (f : List Instruction) : (tdce (dceRun f)).2 = false :=
  dceRunFuel_fix (f.length + 1) f (by omega)

/-! ## Helper lemmas for the control-instruction frame property -/

/-- Control instructions survive marking and compaction. -/
theorem control_kept (u : List Symbol) (inst : Instruction)
    (h : isControl inst = true) : keepLive u inst = true := by
  cases inst <;> simp_all [isControl, keepLive, mark, destination, isNop]

/-- Filtering by `keepLive` does not change the control-instruction
subsequence. -/
theorem filter_ctl_keep (u : List Symbol) :
    ∀ f : List Instruction,
      (f.filter (keepLive u)).filter isControl = f.filter isControl := by
  intro f
  induction f with
  | nil => rfl
  | cons inst f ih =>
    by_cases hc : isControl inst = true
    · have hk := control_kept u inst hc
      rw [List.filter_cons, if_pos hk, List.filter_cons, if_pos hc,
        List.filter_cons, if_pos hc, ih]
    · by_cases hk : keepLive u inst = true
      · rw [List.filter_cons, if_pos hk, List.filter_cons, if_neg hc,
          List.filter_cons, if_neg hc, ih]
      · rw [List.filter_cons, if_neg hk, List.filter_cons, if_neg hc, ih]

/-- One `tdce` pass preserves the control-instruction subsequence. -/
theorem tdce_ctl (f : List Instruction) :
    ((tdce f).1).filter isControl = f.filter isControl := by
  rw [tdce_fst]
  exact filter_ctl_keep _ f

/-- The iterated pass preserves the control-instruction subsequence. -/
theorem dceRunFuel_ctl : ∀ (n : Nat) (f : List Instruction),
    (dceRunFuel n f).filter isControl = f.filter isControl := by
  intro n
  induction n with
  | zero => intro f; rfl
  | succ n ih =>
    intro f
    simp only [dceRunFuel]
    by_cases hc : (tdce f).2 = true
    · rw [if_pos hc, ih, tdce_ctl]
    · rw [if_neg hc, tdce_ctl]

/-! ## Helper lemmas for DCE soundness on literal-disciplined functions -/

/-- Under `okInst`, the use-scan covers every semantic use of an
instruction. -/
theorem uses_sub_scan : ∀ inst : Instruction, okInst inst = true →
    ∀ s ∈ usesOf inst, s ∈ scanInserts inst := by
  intro inst hok s hs
  cases inst with
  | Const dst lit => simp [usesOf] at hs
  | Jump t => simp [usesOf] at hs
  | Label a => simp [usesOf] at hs
  | Nop => simp [usesOf] at hs
  | Branch cond t e => simp_all [usesOf, scanInserts, operands]
  | Return v => cases v <;> simp_all [usesOf, symsOfValue, okInst, isStorage, scanInserts, operands]
  | Id dst v => cases v <;> simp_all [usesOf, symsOfValue, okInst, isStorage, scanInserts, operands]
  | Not dst v => cases v <;> simp_all [usesOf, symsOfValue, okInst, isStorage, scanInserts, operands]
  | Neg dst v => cases v <;> simp_all [usesOf, symsOfValue, okInst, isStorage, scanInserts, operands]
  | Add dst lhs rhs => cases lhs <;> cases rhs <;> simp_all [usesOf, symsOfValue, okInst, isStorage, scanInserts, operands]
  | Sub dst lhs rhs => cases lhs <;> cases rhs <;> simp_all [usesOf, symsOfValue, okInst, isStorage, scanInserts, operands]
  | Mul dst lhs rhs => cases lhs <;> cases rhs <;> simp_all [usesOf, symsOfValue, okInst, isStorage, scanInserts, operands]
  | Div dst lhs rhs => cases lhs <;> cases rhs <;> simp_all [usesOf, symsOfValue, okInst, isStorage, scanInserts, operands]
  | And dst lhs rhs => cases lhs <;> cases rhs <;> simp_all [usesOf, symsOfValue, okInst, isStorage, scanInserts, operands]
  | Or dst lhs rhs => cases lhs <;> cases rhs <;> simp_all [usesOf, symsOfValue, okInst, isStorage, scanInserts, operands]
  | Eq dst lhs rhs => cases lhs <;> cases rhs <;> simp_all [usesOf, symsOfValue, okInst, isStorage, scanInserts, operands]
  | Neq dst lhs rhs => cases lhs <;> cases rhs <;> simp_all [usesOf, symsOfValue, okInst, isStorage, scanInserts, operands]
  | Lt dst lhs rhs => cases lhs <;> cases rhs <;> simp_all [usesOf, symsOfValue, okInst, isStorage, scanInserts, operands]
  | Lte dst lhs rhs => cases lhs <;> cases rhs <;> simp_all [usesOf, symsOfValue, okInst, isStorage, scanInserts, operands]
  | Gt dst lhs rhs => cases lhs <;> cases rhs <;> simp_all [usesOf, symsOfValue, okInst, isStorage, scanInserts, operands]
  | Gte dst lhs rhs => cases lhs <;> cases rhs <;> simp_all [usesOf, symsOfValue, okInst, isStorage, scanInserts, operands]
  | Call target args =>
    match args with
    | [] => simp [usesOf, argsSyms] at hs
    | [v] =>
      cases v with
      | StorageLocation a =>
        simp [usesOf, argsSyms, symsOfValue] at hs
        subst hs
        simp [scanInserts, operands]
      | ConstantLiteral l => simp [okInst, isStorage] at hok
    | [v, w] =>
      cases v <;> cases w <;>
        simp_all [usesOf, argsSyms, symsOfValue, okInst, isStorage, scanInserts, operands]
    | v :: w :: x :: rest =>
      exfalso
      simp [okInst] at hok

/-- Per-instruction scan results land in the whole-function used set. -/
theorem scan_sub_collect : ∀ (f : List Instruction) (inst : Instruction),
    inst ∈ f → ∀ s ∈ scanInserts inst, s ∈ collectUses f := by
  intro f
  induction f with
  | nil => intro inst h; simp at h
  | cons i f ih =>
    intro inst h s hs
    rcases List.mem_cons.mp h with h | h
    · subst h
      rw [collectUses]
      exact List.mem_append_left _ hs
    · rw [collectUses]
      exact List.mem_append_right _ (ih inst h s hs)

/-- Core preservation: filtering by `keepLive U` keeps the stream
well-formed, provided every use in the stream lies in `U` and every
`U`-symbol defined so far in the original is defined so far in the
filtered stream. -/
theorem wf_filter_pres (U : List Symbol) :
    ∀ (f : List Instruction) (defs defs' : List Symbol),
      (∀ inst ∈ f, ∀ s ∈ usesOf inst, s ∈ U) →
      (∀ s, s ∈ U → s ∈ defs → s ∈ defs') →
      wfFrom defs f = true →
      wfFrom defs' (f.filter (keepLive U)) = true := by
  intro f
  induction f with
  | nil =>
    intro defs defs' _ _ _
    rfl
  | cons i f ih =>
    intro defs defs' hU hinv hwf
    rw [wfFrom, Bool.and_eq_true] at hwf
    obtain ⟨huse, hrest⟩ := hwf
    have hUtail : ∀ inst ∈ f, ∀ s ∈ usesOf inst, s ∈ U :=
      fun inst h => hU inst (List.mem_cons_of_mem _ h)
    by_cases hk : keepLive U i = true
    · rw [List.filter_cons, if_pos hk, wfFrom, Bool.and_eq_true]
      constructor
      · rw [List.all_eq_true] at huse ⊢
        intro s hsi
        have h1 := decide_eq_true_eq.mp (huse s hsi)
        have h2 : s ∈ U := hU i (List.mem_cons_self i f) s hsi
        exact decide_eq_true (hinv s h2 h1)
      · cases hd : destination i with
        | none =>
          rw [hd] at hrest
          exact ih defs defs' hUtail hinv hrest
        | some d =>
          rw [hd] at hrest
          refine ih (d :: defs) (d :: defs') hUtail ?_ hrest
          intro s hsU hsd
          rcases List.mem_cons.mp hsd with h | h
          · exact h ▸ List.mem_cons_self d defs'
          · exact List.mem_cons_of_mem _ (hinv s hsU h)
    · rw [List.filter_cons, if_neg hk]
      cases hd : destination i with
      | none =>
        rw [hd] at hrest
        exact ih defs defs' hUtail hinv hrest
      | some d =>
        have hdU : d ∉ U := by
          intro hdin
          apply hk
          have hm : mark U i = i := by
            simp [mark, hd, hdin]
          have hn := dest_some_not_nop hd
          simp [keepLive, hm, hn]
        rw [hd] at hrest
        refine ih (d :: defs) defs' hUtail ?_ hrest
        intro s hsU hsmem
        rcases List.mem_cons.mp hsmem with h | h
        · exact absurd (h ▸ hsU) hdU
        · exact hinv s hsU h

/-- One `tdce` pass preserves the literal discipline and
well-formedness. -/
theorem tdce_preserves_ok_wf (f : List Instruction)
    (hok : literalsOk f = true) (hwf : wellFormed f = true) :
    literalsOk (tdce f).1 = true ∧ wellFormed (tdce f).1 = true := by
  constructor
  · rw [tdce_fst]
    rw [literalsOk, List.all_eq_true] at hok ⊢
    intro inst hins
    exact hok inst (List.mem_of_mem_filter hins)
  · rw [wellFormed, tdce_fst]
    apply wf_filter_pres (collectUses f) f [] []
    · intro inst hins s hs
      rw [literalsOk, List.all_eq_true] at hok
      have h1 : s ∈ scanInserts inst := uses_sub_scan inst (hok inst hins) s hs
      exact scan_sub_collect f inst hins s h1
    · intro s _ h
      exact h
    · exact hwf

/-- The iterated pass preserves the literal discipline and
well-formedness. -/
theorem dceRunFuel_sound : ∀ (n : Nat) (f : List Instruction),
    literalsOk f = true → wellFormed f = true →
    literalsOk (dceRunFuel n f) = true ∧ wellFormed (dceRunFuel n f) = true := by
  intro n
  induction n with
  | zero => intro f h1 h2; exact ⟨h1, h2⟩
  | succ n ih =>
    intro f h1 h2
    simp only [dceRunFuel]
    have hp := tdce_preserves_ok_wf f h1 h2
    by_cases hc : (tdce f).2 = true
    · rw [if_pos hc]
      exact ih _ hp.1 hp.2
    · rw [if_neg hc]
      exact hp

/-! ## Helper lemmas for LVN common-subexpression elimination -/

/-- Lookup skips an entry with a different key. -/
theorem alookup_cons_ne {α β : Type} [DecidableEq α] (k : α) (v : β)
    (l : List (α × β)) (q : α) (h : k ≠ q) :
    alookup ((k, v) :: l) q = alookup l q := by
  simp [alookup, h]

/-- `valueNumber` leaves `table` and `vars` unchanged, only grows the
fresh counter, preserves existing environment bindings, preserves
`consts` lookups at already-allocated numbers, and keeps all `consts`
keys below the counter. -/
theorem valueNumber_pres (st : LState) (v : Value) :
    (valueNumber st v).1.table = st.table ∧
    (valueNumber st v).1.vars = st.vars ∧
    st.next ≤ (valueNumber st v).1.next ∧
    (∀ (x : Symbol) (vx : Nat), alookup st.env x = some vx →
      alookup (valueNumber st v).1.env x = some vx) ∧
    (∀ k : Nat, k < st.next →
      alookup (valueNumber st v).1.consts k = alookup st.consts k) ∧
    ((∀ p ∈ st.consts, p.1 < st.next) →
      ∀ p ∈ (valueNumber st v).1.consts, p.1 < (valueNumber st v).1.next) := by
  cases v with
  | StorageLocation s =>
    cases h : alookup st.env s with
    | some vn =>
      have hred : valueNumber st (Value.StorageLocation s) = (st, vn) := by
        simp [valueNumber, h]
      rw [hred]
      exact ⟨rfl, rfl, Nat.le_refl _, fun x vx hx => hx, fun k _ => rfl, fun hb => hb⟩
    | none =>
      have hred : valueNumber st (Value.StorageLocation s)
          = ({ st with env := (s, st.next) :: st.env, next := st.next + 1 }, st.next) := by
        simp [valueNumber, h]
      rw [hred]
      refine ⟨rfl, rfl, Nat.le_succ _, ?_, fun k _ => rfl, ?_⟩
      · intro x vx hx
        have hsx : s ≠ x := by
          intro he
          rw [he] at h
          rw [h] at hx
          cases hx
        rw [alookup_cons_ne _ _ _ _ hsx]
        exact hx
      · intro hb p hp
        exact Nat.lt_succ_of_lt (hb p hp)
  | ConstantLiteral lit =>
    cases h : lookupLiteralVN st.consts lit with
    | some vn =>
      have hred : valueNumber st (Value.ConstantLiteral lit) = (st, vn) := by
        simp [valueNumber, h]
      rw [hred]
      exact ⟨rfl, rfl, Nat.le_refl _, fun x vx hx => hx, fun k _ => rfl, fun hb => hb⟩
    | none =>
      have hred : valueNumber st (Value.ConstantLiteral lit)
          = ({ st with consts := (st.next, lit) :: st.consts, next := st.next + 1 }, st.next) := by
        simp [valueNumber, h]
      rw [hred]
      refine ⟨rfl, rfl, Nat.le_succ _, fun x vx hx => hx, ?_, ?_⟩
      · intro k hk
        exact alookup_cons_ne _ _ _ _ (by omega)
      · intro hb p hp
        rcases List.mem_cons.mp hp with he | hp'
        · rw [he]
          exact Nat.lt_succ_self _
        · exact Nat.lt_succ_of_lt (hb p hp')

/-- Filtering an association list preserves a lookup whose first hit
survives the filter. -/
theorem alookup_filter {α β : Type} [DecidableEq α] (p : α × β → Bool) :
    ∀ (l : List (α × β)) (k : α) (v : β),
      alookup l k = some v → p (k, v) = true → alookup (l.filter p) k = some v := by
  intro l
  induction l with
  | nil =>
    intro k v h _
    cases h
  | cons e rest ih =>
    intro k v h hp
    obtain ⟨k', v'⟩ := e
    by_cases hk : k' = k
    · subst hk
      have hv : v' = v := by simpa [alookup] using h
      subst hv
      rw [List.filter_cons, if_pos hp]
      simp [alookup]
    · rw [alookup, if_neg hk] at h
      rw [List.filter_cons]
      by_cases hq : p (k', v') = true
      · rw [if_pos hq, alookup_cons_ne _ _ _ _ hk]
        exact ih k v h hp
      · rw [if_neg hq]
        exact ih k v h hp

/-- Numbering an operand preserves the `Tracks` invariant. -/
theorem valueNumber_tracks {a b c : Symbol} {va vb vnc : Nat} {st : LState}
    (v : Value) (h : Tracks a b c va vb vnc st) :
    Tracks a b c va vb vnc (valueNumber st v).1 := by
  obtain ⟨h1, h2, h3, h4, h5, h6, h7, h8, h9, h10, h11⟩ := h
  obtain ⟨pt, pv, pn, pe, pc, pb⟩ := valueNumber_pres st v
  refine ⟨pe a va h1, pe b vb h2, ?_, ?_, ?_, ?_, ?_, ?_, ?_, pb h10, ?_⟩
  · rw [pc va h7]; exact h3
  · rw [pc vb h8]; exact h4
  · rw [pt]; exact h5
  · rw [pv]; exact h6
  · omega
  · omega
  · omega
  · rw [pv]
    intro p hp
    exact Nat.lt_of_lt_of_le (h11 p hp) pn

/-- Rebinding a destination other than `a`, `b` and the canonical
holder `c` preserves the `Tracks` invariant (the holder-invalidation of
the redefinition rule removes only entries naming the rebound symbol). -/
theorem bindDst_tracks {a b c : Symbol} {va vb vnc : Nat} {st : LState}
    (dst : Symbol) (vn : Nat) (h : Tracks a b c va vb vnc st)
    (hda : dst ≠ a) (hdb : dst ≠ b) (hdc : dst ≠ c) :
    Tracks a b c va vb vnc (bindDst st dst vn) := by
  obtain ⟨h1, h2, h3, h4, h5, h6, h7, h8, h9, h10, h11⟩ := h
  refine ⟨?_, ?_, h3, h4, h5, ?_, h7, h8, h9, h10, ?_⟩
  · show alookup ((dst, vn) :: st.env) a = some va
    rw [alookup_cons_ne _ _ _ _ hda]
    exact h1
  · show alookup ((dst, vn) :: st.env) b = some vb
    rw [alookup_cons_ne _ _ _ _ hdb]
    exact h2
  · exact alookup_filter _ st.vars vnc c h6 (decide_eq_true (Ne.symm hdc))
  · intro p hp
    exact h11 p (List.mem_of_mem_filter hp)

/-- Recording a new computation under a key different from the tracked
encoding, with a destination other than `a`, `b` and the canonical
holder `c`, preserves the `Tracks` invariant. -/
theorem recordNew_tracks {a b c : Symbol} {va vb vnc : Nat} {st : LState}
    (key : OPCode × Nat × Nat) (dst : Symbol) (h : Tracks a b c va vb vnc st)
    (hda : dst ≠ a) (hdb : dst ≠ b) (hdc : dst ≠ c)
    (hkey : key ≠ (.Add, va, vb)) :
    Tracks a b c va vb vnc (recordNew st key dst) := by
  obtain ⟨h1, h2, h3, h4, h5, h6, h7, h8, h9, h10, h11⟩ := h
  refine ⟨?_, ?_, h3, h4, ?_, ?_, ?_, ?_, ?_, ?_, ?_⟩
  · show alookup ((dst, st.next) :: st.env) a = some va
    rw [alookup_cons_ne _ _ _ _ hda]
    exact h1
  · show alookup ((dst, st.next) :: st.env) b = some vb
    rw [alookup_cons_ne _ _ _ _ hdb]
    exact h2
  · show alookup ((key, st.next) :: st.table) (.Add, va, vb) = some vnc
    rw [alookup_cons_ne _ _ _ _ hkey]
    exact h5
  · show alookup ((st.next, dst) :: st.vars.filter (fun p => decide (p.2 ≠ dst))) vnc
      = some c
    rw [alookup_cons_ne _ _ _ _ (by omega)]
    exact alookup_filter _ st.vars vnc c h6 (decide_eq_true (Ne.symm hdc))
  · show va < st.next + 1
    omega
  · show vb < st.next + 1
    omega
  · show vnc < st.next + 1
    omega
  · intro p hp
    exact Nat.lt_succ_of_lt (h10 p hp)
  · intro p hp
    rcases List.mem_cons.mp hp with he | hp'
    · rw [he]
      exact Nat.lt_succ_self _
    · exact Nat.lt_succ_of_lt (h11 p (List.mem_of_mem_filter hp'))

/-- A binary LVN step whose destination is neither `a` nor `b` preserves
the `Tracks` invariant. -/
theorem lvnBinaryStep_tracks {a b c : Symbol} {va vb vnc : Nat} {st : LState}
    (op : OPCode) (dst : Symbol) (lhs rhs : Value) (orig : Instruction)
    (h : Tracks a b c va vb vnc st) (hda : dst ≠ a) (hdb : dst ≠ b)
    (hdc : dst ≠ c) :
    Tracks a b c va vb vnc (lvnBinaryStep st op dst lhs rhs orig).1 := by
  rcases hv1 : valueNumber st lhs with ⟨st1, n1⟩
  have ht1 : Tracks a b c va vb vnc st1 := by
    have := valueNumber_tracks lhs h
    rwa [hv1] at this
  rcases hv2 : valueNumber st1 rhs with ⟨st2, n2⟩
  have ht2 : Tracks a b c va vb vnc st2 := by
    have := valueNumber_tracks rhs ht1
    rwa [hv2] at this
  simp only [lvnBinaryStep, hv1, hv2]
  split
  · rename_i lit hf
    rcases hv3 : valueNumber st2 (.ConstantLiteral lit) with ⟨st3, vn⟩
    have ht3 : Tracks a b c va vb vnc st3 := by
      have := valueNumber_tracks (.ConstantLiteral lit) ht2
      rwa [hv3] at this
    simp only [hv3]
    exact bindDst_tracks dst vn ht3 hda hdb hdc
  · split
    · rename_i vn htab
      split
      · rename_i sym hvars
        exact bindDst_tracks dst vn ht2 hda hdb hdc
      · rename_i hvars
        have hkey : (op, n1, n2) ≠ (.Add, va, vb) := by
          intro he
          rw [he, ht2.2.2.2.2.1] at htab
          have hvn : vnc = vn := Option.some.inj htab
          rw [← hvn, ht2.2.2.2.2.2.1] at hvars
          cases hvars
        exact recordNew_tracks (op, n1, n2) dst ht2 hda hdb hdc hkey
    · rename_i htab
      have hkey : (op, n1, n2) ≠ (.Add, va, vb) := by
        intro he
        rw [he, ht2.2.2.2.2.1] at htab
        cases htab
      exact recordNew_tracks (op, n1, n2) dst ht2 hda hdb hdc hkey

/-- A unary LVN step whose destination is neither `a` nor `b` preserves
the `Tracks` invariant. -/
theorem lvnUnaryStep_tracks {a b c : Symbol} {va vb vnc : Nat} {st : LState}
    (op : OPCode) (dst : Symbol) (operand : Value) (orig : Instruction)
    (h : Tracks a b c va vb vnc st) (hda : dst ≠ a) (hdb : dst ≠ b)
    (hdc : dst ≠ c) :
    Tracks a b c va vb vnc (lvnUnaryStep st op dst operand orig).1 := by
  rcases hv1 : valueNumber st operand with ⟨st1, n1⟩
  have ht1 : Tracks a b c va vb vnc st1 := by
    have := valueNumber_tracks operand h
    rwa [hv1] at this
  simp only [lvnUnaryStep, hv1]
  split
  · rename_i lit hf
    rcases hv3 : valueNumber st1 (.ConstantLiteral lit) with ⟨st3, vn⟩
    have ht3 : Tracks a b c va vb vnc st3 := by
      have := valueNumber_tracks (.ConstantLiteral lit) ht1
      rwa [hv3] at this
    simp only [hv3]
    exact bindDst_tracks dst vn ht3 hda hdb hdc
  · split
    · rename_i vn htab
      split
      · rename_i sym hvars
        exact bindDst_tracks dst vn ht1 hda hdb hdc
      · rename_i hvars
        have hkey : (op, n1, n1) ≠ (.Add, va, vb) := by
          intro he
          rw [he, ht1.2.2.2.2.1] at htab
          have hvn : vnc = vn := Option.some.inj htab
          rw [← hvn, ht1.2.2.2.2.2.1] at hvars
          cases hvars
        exact recordNew_tracks (op, n1, n1) dst ht1 hda hdb hdc hkey
    · rename_i htab
      have hkey : (op, n1, n1) ≠ (.Add, va, vb) := by
        intro he
        rw [he, ht1.2.2.2.2.1] at htab
        cases htab
      exact recordNew_tracks (op, n1, n1) dst ht1 hda hdb hdc hkey

/-- Any LVN step whose destination is neither `a` nor `b` preserves the
`Tracks` invariant. -/
theorem lvnStep_tracks {a b c : Symbol} {va vb vnc : Nat} (st : LState)
    (inst : Instruction) (h : Tracks a b c va vb vnc st)
    (hda : destination inst ≠ some a) (hdb : destination inst ≠ some b)
    (hdc : destination inst ≠ some c) :
    Tracks a b c va vb vnc (lvnStep st inst).1 := by
  cases inst with
  | Const dst lit =>
    rcases hv : valueNumber st (.ConstantLiteral lit) with ⟨st1, vn⟩
    have ht1 : Tracks a b c va vb vnc st1 := by
      have := valueNumber_tracks (.ConstantLiteral lit) h
      rwa [hv] at this
    simp only [lvnStep, hv]
    exact bindDst_tracks dst vn ht1 (fun he => hda (congrArg some he))
      (fun he => hdb (congrArg some he)) (fun he => hdc (congrArg some he))
  | Id dst value =>
    rcases hv : valueNumber st value with ⟨st1, vn⟩
    have ht1 : Tracks a b c va vb vnc st1 := by
      have := valueNumber_tracks value h
      rwa [hv] at this
    simp only [lvnStep, hv]
    exact bindDst_tracks dst vn ht1 (fun he => hda (congrArg some he))
      (fun he => hdb (congrArg some he)) (fun he => hdc (congrArg some he))
  | Add dst lhs rhs =>
    exact lvnBinaryStep_tracks .Add dst lhs rhs _ h
      (fun he => hda (congrArg some he)) (fun he => hdb (congrArg some he))
      (fun he => hdc (congrArg some he))
  | Sub dst lhs rhs =>
    exact lvnBinaryStep_tracks .Sub dst lhs rhs _ h
      (fun he => hda (congrArg some he)) (fun he => hdb (congrArg some he))
      (fun he => hdc (congrArg some he))
  | Mul dst lhs rhs =>
    exact lvnBinaryStep_tracks .Mul dst lhs rhs _ h
      (fun he => hda (congrArg some he)) (fun he => hdb (congrArg some he))
      (fun he => hdc (congrArg some he))
  | Div dst lhs rhs =>
    exact lvnBinaryStep_tracks .Div dst lhs rhs _ h
      (fun he => hda (congrArg some he)) (fun he => hdb (congrArg some he))
      (fun he => hdc (congrArg some he))
  | And dst lhs rhs =>
    exact lvnBinaryStep_tracks .And dst lhs rhs _ h
      (fun he => hda (congrArg some he)) (fun he => hdb (congrArg some he))
      (fun he => hdc (congrArg some he))
  | Or dst lhs rhs =>
    exact lvnBinaryStep_tracks .Or dst lhs rhs _ h
      (fun he => hda (congrArg some he)) (fun he => hdb (congrArg some he))
      (fun he => hdc (congrArg some he))
  | Eq dst lhs rhs =>
    exact lvnBinaryStep_tracks .Eq dst lhs rhs _ h
      (fun he => hda (congrArg some he)) (fun he => hdb (congrArg some he))
      (fun he => hdc (congrArg some he))
  | Neq dst lhs rhs =>
    exact lvnBinaryStep_tracks .Neq dst lhs rhs _ h
      (fun he => hda (congrArg some he)) (fun he => hdb (congrArg some he))
      (fun he => hdc (congrArg some he))
  | Lt dst lhs rhs =>
    exact lvnBinaryStep_tracks .Lt dst lhs rhs _ h
      (fun he => hda (congrArg some he)) (fun he => hdb (congrArg some he))
      (fun he => hdc (congrArg some he))
  | Lte dst lhs rhs =>
    exact lvnBinaryStep_tracks .Lte dst lhs rhs _ h
      (fun he => hda (congrArg some he)) (fun he => hdb (congrArg some he))
      (fun he => hdc (congrArg some he))
  | Gt dst lhs rhs =>
    exact lvnBinaryStep_tracks .Gt dst lhs rhs _ h
      (fun he => hda (congrArg some he)) (fun he => hdb (congrArg some he))
      (fun he => hdc (congrArg some he))
  | Gte dst lhs rhs =>
    exact lvnBinaryStep_tracks .Gte dst lhs rhs _ h
      (fun he => hda (congrArg some he)) (fun he => hdb (congrArg some he))
      (fun he => hdc (congrArg some he))
  | Not dst operand =>
    exact lvnUnaryStep_tracks .Not dst operand _ h
      (fun he => hda (congrArg some he)) (fun he => hdb (congrArg some he))
      (fun he => hdc (congrArg some he))
  | Neg dst operand =>
    exact lvnUnaryStep_tracks .Neg dst operand _ h
      (fun he => hda (congrArg some he)) (fun he => hdb (congrArg some he))
      (fun he => hdc (congrArg some he))
  | Return value => exact h
  | Call target args => exact h
  | Jump target => exact h
  | Branch cond t e => exact h
  | Label addr => exact h
  | Nop => exact h

/-- Sweeping instructions that never define `a` or `b` preserves the
`Tracks` invariant. -/
theorem lvnSteps_tracks {a b c : Symbol} {va vb vnc : Nat} :
    ∀ (mid : List Instruction) (st : LState),
      Tracks a b c va vb vnc st →
      (∀ i ∈ mid, destination i ≠ some a ∧ destination i ≠ some b ∧
        destination i ≠ some c) →
      Tracks a b c va vb vnc (lvnSteps st mid).1 := by
  intro mid
  induction mid with
  | nil => intro st h _; exact h
  | cons i mid ih =>
    intro st h hmid
    rcases hs : lvnStep st i with ⟨st1, out⟩
    rcases hrest : lvnSteps st1 mid with ⟨st2, outs⟩
    simp only [lvnSteps, hs, hrest]
    have h1 : Tracks a b c va vb vnc st1 := by
      have := lvnStep_tracks st i h (hmid i (List.mem_cons_self i mid)).1
        (hmid i (List.mem_cons_self i mid)).2.1
        (hmid i (List.mem_cons_self i mid)).2.2
      rwa [hs] at this
    have h2 := ih st1 h1 (fun j hj => hmid j (List.mem_cons_of_mem _ hj))
    rwa [hrest] at h2

/-- Under the `Tracks` invariant, a later `add a b` is rewritten by CSE
to a copy from the canonical holder `c`. -/
theorem lvnStep_cse {a b c : Symbol} {va vb vnc : Nat} (st : LState) (d : Symbol)
    (h : Tracks a b c va vb vnc st) :
    (lvnStep st (.Add d (.StorageLocation a) (.StorageLocation b))).2
      = .Id d (.StorageLocation c) := by
  obtain ⟨h1, h2, h3, h4, h5, h6, _, _, _, _, _⟩ := h
  simp [lvnStep, lvnBinaryStep, valueNumber, h1, h2, h3, h4, h5, h6]

/-- The LVN sweep of an empty block. -/
theorem lvnSteps_nil (st : LState) : lvnSteps st [] = (st, []) := rfl

/-- Unfolding one LVN sweep step. -/
theorem lvnSteps_cons (st : LState) (inst : Instruction) (rest : List Instruction) :
    lvnSteps st (inst :: rest)
      = ((lvnSteps (lvnStep st inst).1 rest).1,
         (lvnStep st inst).2 :: (lvnSteps (lvnStep st inst).1 rest).2) := by
  rcases hs : lvnStep st inst with ⟨st1, out⟩
  rcases hr : lvnSteps st1 rest with ⟨st2, outs⟩
  simp [lvnSteps, hs, hr]

/-- The LVN sweep splits over concatenation. -/
theorem lvnSteps_append : ∀ (xs ys : List Instruction) (st : LState),
    lvnSteps st (xs ++ ys)
      = ((lvnSteps (lvnSteps st xs).1 ys).1,
         (lvnSteps st xs).2 ++ (lvnSteps (lvnSteps st xs).1 ys).2) := by
  intro xs
  induction xs with
  | nil =>
    intro ys st
    rcases h : lvnSteps st ys with ⟨s2, o2⟩
    simp [lvnSteps, h]
  | cons i xs ih =>
    intro ys st
    rw [List.cons_append, lvnSteps_cons, lvnSteps_cons, ih ys (lvnStep st i).1]
    simp

/-! ## Claim theorems -/

/-- C1 (amended): in DCE's use-collection scan, a two-operand instruction
contributes its operands' symbols to the used set only when both operands
are `StorageLocation`s (then both are inserted); a lone `StorageLocation`
operand is inserted; a two-operand instruction pairing a
`StorageLocation` with a `ConstantLiteral` contributes nothing, in either
order. -/
theorem scan_storage_rules :
    (∀ (inst : Instruction) (a b : Symbol),
        operands inst = (some (.StorageLocation a), some (.StorageLocation b)) →
        a ∈ scanInserts inst ∧ b ∈ scanInserts inst) ∧
    (∀ (inst : Instruction) (a : Symbol),
        operands inst = (some (.StorageLocation a), none) →
        a ∈ scanInserts inst) ∧
    (∀ (inst : Instruction) (a : Symbol) (l : Literal),
        operands inst = (some (.StorageLocation a), some (.ConstantLiteral l)) →
        scanInserts inst = []) ∧
    (∀ (inst : Instruction) (l : Literal) (a : Symbol),
        operands inst = (some (.ConstantLiteral l), some (.StorageLocation a)) →
        scanInserts inst = []) := by
  refine ⟨?_, ?_, ?_, ?_⟩ <;> intro inst <;> intros <;> simp_all [scanInserts]

/-- Witness for C1's amended theorem at concrete instructions. -/
theorem scan_storage_rules_witness :
    ("a", Ty.Int) ∈ scanInserts (.Add ("y", Ty.Int)
        (.StorageLocation ("a", Ty.Int)) (.StorageLocation ("b", Ty.Int))) ∧
    scanInserts (.Add ("y", Ty.Int)
        (.StorageLocation ("a", Ty.Int)) (.ConstantLiteral (.Int 2))) = [] :=
  ⟨(scan_storage_rules.1
      (.Add ("y", Ty.Int) (.StorageLocation ("a", Ty.Int)) (.StorageLocation ("b", Ty.Int)))
      ("a", Ty.Int) ("b", Ty.Int) rfl).1,
    scan_storage_rules.2.2.1
      (.Add ("y", Ty.Int) (.StorageLocation ("a", Ty.Int)) (.ConstantLiteral (.Int 2)))
      ("a", Ty.Int) (.Int 2) rfl⟩

/-- C1 counterexample: an `Add` with one `StorageLocation` and one
`ConstantLiteral` operand does not put the storage symbol into the used
set, contrary to the claim. -/
theorem scan_mixed_counterexample :
    ¬ (("x", Ty.Int) ∈ collectUses
        [.Add ("y", Ty.Int) (.StorageLocation ("x", Ty.Int))
          (.ConstantLiteral (.Int 2))]) := by
  decide

/-- C2 (amended): for every well-formed function whose constant-literal
operands occur only in `Const` instructions (and whose calls pass at most
two storage-location arguments), every symbol referenced as an operand in
`dce(F)` still has a reaching definition in `dce(F)`. -/
theorem dce_no_dangling_uses (f : List Instruction)
    (hok : literalsOk f = true) (hwf : wellFormed f = true) :
    wellFormed (dceRun f) = true :=
  (dceRunFuel_sound (f.length + 1) f hok hwf).2

/-- Witness for C2's amended theorem at a concrete function. -/
theorem dce_no_dangling_uses_witness :
    literalsOk [.Const ("x", Ty.Int) (.Int 1),
        .Return (.StorageLocation ("x", Ty.Int))] = true ∧
    wellFormed [.Const ("x", Ty.Int) (.Int 1),
        .Return (.StorageLocation ("x", Ty.Int))] = true ∧
    wellFormed (dceRun [.Const ("x", Ty.Int) (.Int 1),
        .Return (.StorageLocation ("x", Ty.Int))]) = true :=
  ⟨by decide, by decide, dce_no_dangling_uses _ (by decide) (by decide)⟩

/-- C2 counterexample: a well-formed function (the mixed-operand `Add`
uses `x`, defined just before; `Return` uses `y`) whose DCE output
contains a dangling use — the scan misses `x`, so `x`'s definition is
eliminated while the `Add` that reads `x` survives. -/
theorem dce_dangling_counterexample :
    wellFormed [.Const ("x", Ty.Int) (.Int 1),
        .Add ("y", Ty.Int) (.StorageLocation ("x", Ty.Int)) (.ConstantLiteral (.Int 2)),
        .Return (.StorageLocation ("y", Ty.Int))] = true ∧
    wellFormed (dceRun [.Const ("x", Ty.Int) (.Int 1),
        .Add ("y", Ty.Int) (.StorageLocation ("x", Ty.Int)) (.ConstantLiteral (.Int 2)),
        .Return (.StorageLocation ("y", Ty.Int))]) = false := by
  exact ⟨by decide, by decide⟩

/-- C4: DCE is idempotent — running the pass twice yields the same
function as running it once, for every function. -/
theorem dce_idempotent (f : List Instruction) : dceRun (dceRun f) = dceRun f := by
  have hfix := dceRun_fix f
  have hG : (tdce (dceRun f)).1 = dceRun f := tdce_unchanged hfix
  show dceRunFuel ((dceRun f).length + 1) (dceRun f) = dceRun f
  simp only [dceRunFuel]
  rw [if_neg (by rw [hfix]; simp), hG]

/-- C5: the Display implementation in `instruction.rs` renders every
comparison instruction with the opcode text `or`, renders `Return` as
`return <v>`, and renders `Const` as `<dst>: <type> const = <lit>` —
evaluating the embedded renderer at these instructions shows the
divergence from the canonical forms the claim (and the repository's own
golden tests) require. -/
theorem display_diverges_from_canonical :
    displayInstruction (.Lt ("c", Ty.Bool)
        (.StorageLocation ("a", Ty.Int)) (.StorageLocation ("b", Ty.Int)))
      = "c : bool = or a b" ∧
    displayInstruction (.Return (.StorageLocation ("d", Ty.Int))) = "return d" ∧
    displayInstruction (.Const ("x", Ty.Int) (.Int 42)) = "x: int const = 42" :=
  ⟨rfl, rfl, rfl⟩

/-- C7: each DCE iteration either reports a change and strictly shrinks
the instruction count, or reports no change and the fixpoint loop exits
with that result. -/
theorem dce_iteration_shrinks_or_exits (f : List Instruction) :
    ((tdce f).2 = true ∧ (tdce f).1.length < f.length) ∨
    ((tdce f).2 = false ∧ dceRun f = (tdce f).1) := by
  by_cases h : (tdce f).2 = true
  · exact Or.inl ⟨h, tdce_lt_of_changed h⟩
  · have h' : (tdce f).2 = false := by
      revert h; cases (tdce f).2 <;> simp
    refine Or.inr ⟨h', ?_⟩
    show dceRunFuel (f.length + 1) f = (tdce f).1
    simp only [dceRunFuel]
    rw [if_neg h]

/-- C8: DCE removes no `Return`, `Jump`, `Branch`, `Call` or `Label`
instruction — that subsequence of the function is unchanged, in order,
by a full DCE run. -/
theorem dce_preserves_control (f : List Instruction) :
    (dceRun f).filter isControl = f.filter isControl :=
  dceRunFuel_ctl (f.length + 1) f

/-- C9: the opcode projection is total (it is a Lean function on all
variants) and is a one-to-one function of the instruction's variant: two
instructions have equal opcodes exactly when they are the same variant. -/
theorem opcode_variant_iff : ∀ i j : Instruction,
    opcode i = opcode j ↔ variantTag i = variantTag j := by
  intro i j
  cases i <;> cases j <;> simp [opcode, variantTag]

/-- C3: during LVN constant folding, when every source operand's value
number maps to a known constant and the opcode is a pure binary or
unary operator, the instruction is rewritten to a `Const` of the
computed literal (and adding constants 4 and 2 computes 6); a division
whose divisor's value number maps to the constant zero is not folded
and is left as the original `Div` operation. -/
theorem lvn_fold_const_and_div_zero :
    (∀ (st : LState) (op : OPCode) (dst a b : Symbol) (va vb : Nat)
        (l1 l2 lit : Literal) (orig : Instruction),
        alookup st.env a = some va →
        alookup st.env b = some vb →
        alookup st.consts va = some l1 →
        alookup st.consts vb = some l2 →
        evalBinary op l1 l2 = some lit →
        (lvnBinaryStep st op dst (.StorageLocation a) (.StorageLocation b) orig).2
          = .Const dst lit) ∧
    (∀ (st : LState) (op : OPCode) (dst a : Symbol) (va : Nat)
        (l1 lit : Literal) (orig : Instruction),
        alookup st.env a = some va →
        alookup st.consts va = some l1 →
        evalUnary op l1 = some lit →
        (lvnUnaryStep st op dst (.StorageLocation a) orig).2 = .Const dst lit) ∧
    evalBinary .Add (.Int 4) (.Int 2) = some (.Int 6) ∧
    (∀ (st : LState) (y a z : Symbol) (va vz : Nat) (m : Int),
        alookup st.env a = some va →
        alookup st.env z = some vz →
        alookup st.consts va = some (.Int m) →
        alookup st.consts vz = some (.Int 0) →
        alookup st.table (.Div, va, vz) = none →
        (lvnStep st (.Div y (.StorageLocation a) (.StorageLocation z))).2
          = .Div y (.StorageLocation a) (.StorageLocation z)) := by
  refine ⟨?_, ?_, rfl, ?_⟩
  · intro st op dst a b va vb l1 l2 lit orig h1 h2 h3 h4 h5
    simp [lvnBinaryStep, valueNumber, h1, h2, h3, h4, h5]
  · intro st op dst a va l1 lit orig h1 h2 h3
    simp [lvnUnaryStep, valueNumber, h1, h2, h3]
  · intro st y a z va vz m h1 h2 h3 h4 h5
    simp [lvnStep, lvnBinaryStep, valueNumber, evalBinary, h1, h2, h3, h4, h5]

/-- Witness for C3's theorem, at a concrete numbering state holding the
constants 4, 2 and 0. -/
theorem lvn_fold_const_and_div_zero_witness :
    (lvnStep ⟨[(("a", Ty.Int), 0), (("b", Ty.Int), 1), (("z", Ty.Int), 2)], [], [],
        [(0, Literal.Int 4), (1, Literal.Int 2), (2, Literal.Int 0)], 3⟩
      (.Add ("x", Ty.Int) (.StorageLocation ("a", Ty.Int))
        (.StorageLocation ("b", Ty.Int)))).2
      = .Const ("x", Ty.Int) (.Int 6) ∧
    (lvnStep ⟨[(("a", Ty.Int), 0), (("b", Ty.Int), 1), (("z", Ty.Int), 2)], [], [],
        [(0, Literal.Int 4), (1, Literal.Int 2), (2, Literal.Int 0)], 3⟩
      (.Neg ("n", Ty.Int) (.StorageLocation ("a", Ty.Int)))).2
      = .Const ("n", Ty.Int) (.Int (-4)) ∧
    (lvnStep ⟨[(("a", Ty.Int), 0), (("b", Ty.Int), 1), (("z", Ty.Int), 2)], [], [],
        [(0, Literal.Int 4), (1, Literal.Int 2), (2, Literal.Int 0)], 3⟩
      (.Div ("y", Ty.Int) (.StorageLocation ("a", Ty.Int))
        (.StorageLocation ("z", Ty.Int)))).2
      = .Div ("y", Ty.Int) (.StorageLocation ("a", Ty.Int))
          (.StorageLocation ("z", Ty.Int)) :=
  ⟨lvn_fold_const_and_div_zero.1
      ⟨[(("a", Ty.Int), 0), (("b", Ty.Int), 1), (("z", Ty.Int), 2)], [], [],
        [(0, Literal.Int 4), (1, Literal.Int 2), (2, Literal.Int 0)], 3⟩
      .Add ("x", Ty.Int) ("a", Ty.Int) ("b", Ty.Int) 0 1
      (.Int 4) (.Int 2) (.Int 6)
      (.Add ("x", Ty.Int) (.StorageLocation ("a", Ty.Int))
        (.StorageLocation ("b", Ty.Int)))
      rfl rfl rfl rfl rfl,
    lvn_fold_const_and_div_zero.2.1
      ⟨[(("a", Ty.Int), 0), (("b", Ty.Int), 1), (("z", Ty.Int), 2)], [], [],
        [(0, Literal.Int 4), (1, Literal.Int 2), (2, Literal.Int 0)], 3⟩
      .Neg ("n", Ty.Int) ("a", Ty.Int) 0
      (.Int 4) (.Int (-4))
      (.Neg ("n", Ty.Int) (.StorageLocation ("a", Ty.Int)))
      rfl rfl rfl,
    lvn_fold_const_and_div_zero.2.2.2
      ⟨[(("a", Ty.Int), 0), (("b", Ty.Int), 1), (("z", Ty.Int), 2)], [], [],
        [(0, Literal.Int 4), (1, Literal.Int 2), (2, Literal.Int 0)], 3⟩
      ("y", Ty.Int) ("a", Ty.Int) ("z", Ty.Int) 0 2 4
      rfl rfl rfl rfl rfl⟩

/-- C6 (amended): LVN performs common-subexpression elimination within a
basic block — `c = add a b` followed later in the block by `d = add a b`,
with no redefinition of `a`, `b`, or of the holder `c` in between (and
`c` naming neither operand), leaves the first instruction intact and
rewrites the second to the copy `d = id c`.  Redefining `c` in between
invalidates its canonical-holder entry (§4.5's redefinition rule), so
the restriction on `c` is necessary — see the counterexample. -/
theorem lvn_cse (a b c d : Symbol) (mid : List Instruction)
    (hca : c ≠ a) (hcb : c ≠ b)
    (hmid : ∀ i ∈ mid, destination i ≠ some a ∧ destination i ≠ some b ∧
      destination i ≠ some c) :
    lvnBlock (.Add c (.StorageLocation a) (.StorageLocation b)
        :: mid ++ [.Add d (.StorageLocation a) (.StorageLocation b)])
      = .Add c (.StorageLocation a) (.StorageLocation b)
        :: (lvnSteps (lvnStep initialLState
              (.Add c (.StorageLocation a) (.StorageLocation b))).1 mid).2
          ++ [.Id d (.StorageLocation c)] := by
  have main : ∀ va vb vnc : Nat,
      Tracks a b c va vb vnc (lvnStep initialLState
        (Instruction.Add c (.StorageLocation a) (.StorageLocation b))).1 →
      (lvnStep initialLState
        (Instruction.Add c (.StorageLocation a) (.StorageLocation b))).2
        = Instruction.Add c (.StorageLocation a) (.StorageLocation b) →
      lvnBlock (Instruction.Add c (.StorageLocation a) (.StorageLocation b)
          :: mid ++ [Instruction.Add d (.StorageLocation a) (.StorageLocation b)])
        = Instruction.Add c (.StorageLocation a) (.StorageLocation b)
          :: (lvnSteps (lvnStep initialLState
                (Instruction.Add c (.StorageLocation a) (.StorageLocation b))).1 mid).2
            ++ [Instruction.Id d (.StorageLocation c)] := by
    intro va vb vnc htr hfst
    have hcse := lvnStep_cse
      ((lvnSteps (lvnStep initialLState
        (Instruction.Add c (.StorageLocation a) (.StorageLocation b))).1 mid).1) d
      (lvnSteps_tracks mid _ htr hmid)
    show (lvnSteps initialLState _).2 = _
    simp only [lvnSteps_append, lvnSteps_cons, lvnSteps_nil, hfst, hcse]
  by_cases hab : a = b
  · subst hab
    have hfirst : lvnStep initialLState
        (Instruction.Add c (.StorageLocation a) (.StorageLocation a))
        = (⟨[(c, 1), (a, 0)], [((.Add, 0, 0), 1)], [(1, c)], [], 2⟩,
           .Add c (.StorageLocation a) (.StorageLocation a)) := by
      simp [lvnStep, lvnBinaryStep, valueNumber, alookup, initialLState,
        recordNew, bindDst]
    have htr1 : Tracks a a c 0 0 1 (lvnStep initialLState
        (Instruction.Add c (.StorageLocation a) (.StorageLocation a))).1 := by
      rw [hfirst]
      refine ⟨?_, ?_, rfl, rfl, rfl, rfl, ?_, ?_, ?_, ?_, ?_⟩
      · simp [alookup, hca]
      · simp [alookup, hca]
      · show (0 : Nat) < 2
        decide
      · show (0 : Nat) < 2
        decide
      · show (1 : Nat) < 2
        decide
      · intro p hp
        simp at hp
      · intro p hp
        rw [List.mem_singleton] at hp
        rw [hp]
        show (1 : Nat) < 2
        decide
    exact main 0 0 1 htr1 (by rw [hfirst])
  · have hba : b ≠ a := fun he => hab he.symm
    have hfirst : lvnStep initialLState
        (Instruction.Add c (.StorageLocation a) (.StorageLocation b))
        = (⟨[(c, 2), (b, 1), (a, 0)], [((.Add, 0, 1), 2)], [(2, c)], [], 3⟩,
           .Add c (.StorageLocation a) (.StorageLocation b)) := by
      simp [lvnStep, lvnBinaryStep, valueNumber, alookup, initialLState,
        recordNew, bindDst, hab]
    have htr1 : Tracks a b c 0 1 2 (lvnStep initialLState
        (Instruction.Add c (.StorageLocation a) (.StorageLocation b))).1 := by
      rw [hfirst]
      refine ⟨?_, ?_, rfl, rfl, rfl, rfl, ?_, ?_, ?_, ?_, ?_⟩
      · simp [alookup, hca, hba]
      · simp [alookup, hcb]
      · show (0 : Nat) < 3
        decide
      · show (1 : Nat) < 3
        decide
      · show (2 : Nat) < 3
        decide
      · intro p hp
        simp at hp
      · intro p hp
        rw [List.mem_singleton] at hp
        rw [hp]
        show (2 : Nat) < 3
        decide
    exact main 0 1 2 htr1 (by rw [hfirst])

/-- Witness for C6's theorem at concrete symbols with a one-instruction
middle segment. -/
theorem lvn_cse_witness :
    lvnBlock (.Add ("c", Ty.Int)
          (.StorageLocation ("a", Ty.Int)) (.StorageLocation ("b", Ty.Int))
        :: [.Const ("t", Ty.Int) (.Int 7)]
        ++ [.Add ("d", Ty.Int)
          (.StorageLocation ("a", Ty.Int)) (.StorageLocation ("b", Ty.Int))])
      = .Add ("c", Ty.Int)
          (.StorageLocation ("a", Ty.Int)) (.StorageLocation ("b", Ty.Int))
        :: (lvnSteps (lvnStep initialLState
              (.Add ("c", Ty.Int)
                (.StorageLocation ("a", Ty.Int)) (.StorageLocation ("b", Ty.Int)))).1
            [.Const ("t", Ty.Int) (.Int 7)]).2
          ++ [.Id ("d", Ty.Int) (.StorageLocation ("c", Ty.Int))] :=
  lvn_cse ("a", Ty.Int) ("b", Ty.Int) ("c", Ty.Int) ("d", Ty.Int)
    [.Const ("t", Ty.Int) (.Int 7)]
    (by decide) (by decide)
    (by
      intro i hi
      rw [List.mem_singleton] at hi
      rw [hi]
      exact ⟨by decide, by decide, by decide⟩)

/-- C6 counterexample: with an intervening redefinition of the holder
`c` (allowed by the claim, which restricts only `a` and `b`), the later
`add a b` is NOT rewritten to `d = id c` — the redefinition rule has
invalidated `c` as canonical holder, and the whole block is left
unchanged. -/
theorem lvn_cse_counterexample :
    lvnBlock [.Add ("c", Ty.Int)
          (.StorageLocation ("a", Ty.Int)) (.StorageLocation ("b", Ty.Int)),
        .Const ("c", Ty.Int) (.Int 99),
        .Add ("d", Ty.Int)
          (.StorageLocation ("a", Ty.Int)) (.StorageLocation ("b", Ty.Int))]
      = [.Add ("c", Ty.Int)
          (.StorageLocation ("a", Ty.Int)) (.StorageLocation ("b", Ty.Int)),
        .Const ("c", Ty.Int) (.Int 99),
        .Add ("d", Ty.Int)
          (.StorageLocation ("a", Ty.Int)) (.StorageLocation ("b", Ty.Int))] ∧
    ¬ (lvnBlock [.Add ("c", Ty.Int)
          (.StorageLocation ("a", Ty.Int)) (.StorageLocation ("b", Ty.Int)),
        .Const ("c", Ty.Int) (.Int 99),
        .Add ("d", Ty.Int)
          (.StorageLocation ("a", Ty.Int)) (.StorageLocation ("b", Ty.Int))]
      = [.Add ("c", Ty.Int)
          (.StorageLocation ("a", Ty.Int)) (.StorageLocation ("b", Ty.Int)),
        .Const ("c", Ty.Int) (.Int 99),
        .Id ("d", Ty.Int) (.StorageLocation ("c", Ty.Int))]) := by
  have h1 : lvnBlock [.Add ("c", Ty.Int)
          (.StorageLocation ("a", Ty.Int)) (.StorageLocation ("b", Ty.Int)),
        .Const ("c", Ty.Int) (.Int 99),
        .Add ("d", Ty.Int)
          (.StorageLocation ("a", Ty.Int)) (.StorageLocation ("b", Ty.Int))]
      = [.Add ("c", Ty.Int)
          (.StorageLocation ("a", Ty.Int)) (.StorageLocation ("b", Ty.Int)),
        .Const ("c", Ty.Int) (.Int 99),
        .Add ("d", Ty.Int)
          (.StorageLocation ("a", Ty.Int)) (.StorageLocation ("b", Ty.Int))] := rfl
  refine ⟨h1, fun hc => ?_⟩
  rw [h1] at hc
  simp at hc

/-- C10: a single `tdce` pass never increases the instruction count, and
its boolean result is `true` exactly when the count strictly
decreased. -/
theorem tdce_len_le_and_changed_iff (f : List Instruction) :
    (tdce f).1.length ≤ f.length ∧
    ((tdce f).2 = true ↔ (tdce f).1.length < f.length) :=
  ⟨tdce_len_le f, tdce_snd_iff f⟩

end Glouton
